import Mathlib

/-!
Verification development for the study-assistant repository's RAG core:
the text normalizer and chunker (`src/utils/document_processor.py`) and the
retrieval system (`src/utils/rag_system.py`), shallowly embedded in Lean.
Texts are modelled as `List Char`; Python machine behaviour (regex
whitespace collapse, `str.rfind`, slice clamping, negative list indexing,
numpy `random.choice`, faiss `IndexFlatL2.search`) is embedded explicitly.
-/

namespace StudyAssistant

/-- Python `\s` on the ASCII range, as used by `re.sub(r'\s+', ' ', text)`
and `str.strip()` in `DocumentProcessor.clean_text`. -/
def isPyWs (c : Char) : Bool :=
  c = ' ' || c = '\t' || c = '\n' || c = '\r' || c = '\x0b' || c = '\x0c'

/-- `re.sub(r'\s+', ' ', text)`: every maximal run of whitespace is replaced
by a single space (document_processor.py line 195). -/
def collapseWs : List Char → List Char
  | [] => []
  | [c] => if isPyWs c then [' '] else [c]
  | c :: c2 :: rest =>
    if isPyWs c then
      if isPyWs c2 then collapseWs (c2 :: rest)
      else ' ' :: collapseWs (c2 :: rest)
    else c :: collapseWs (c2 :: rest)

/-- A maximal run of `n` consecutive newlines after `re.sub(r'\n{3,}',
'\n\n', text)`: runs of 3 or more become exactly two, shorter runs are
kept. -/
def emitNlRun (n : Nat) : List Char :=
  if n ≥ 3 then ['\n', '\n'] else List.replicate n '\n'

/-- Helper for `collapseNewlines`: `n` counts the newlines of the current
(still open) run. -/
def collapseNlAux : Nat → List Char → List Char
  | n, [] => emitNlRun n
  | n, c :: cs =>
    if c = '\n' then collapseNlAux (n + 1) cs
    else emitNlRun n ++ c :: collapseNlAux 0 cs

/-- `re.sub(r'\n{3,}', '\n\n', text)` (document_processor.py line 198):
the regex greedily matches maximal newline runs, so this rewrites each
maximal run of 3 or more newlines to exactly two. -/
def collapseNewlines (l : List Char) : List Char :=
  collapseNlAux 0 l

/-- `text.replace('\x00', '')` (document_processor.py line 201). -/
def removeNull (l : List Char) : List Char :=
  l.filter (fun c => c != '\x00')

/-- `text.strip()`: drop leading, then trailing, whitespace
(document_processor.py line 204). -/
def stripChars (l : List Char) : List Char :=
  ((l.dropWhile isPyWs).reverse.dropWhile isPyWs).reverse

/-- `DocumentProcessor.clean_text` (document_processor.py lines 184-206):
collapse all whitespace runs to single spaces, then collapse 3+ newlines to
two, then remove null bytes, then strip. -/
def clean_text (l : List Char) : List Char :=
  stripChars (removeNull (collapseNewlines (collapseWs l)))

/-- Python `text.rfind(c, s, e)`: the largest index `i` with
`s ≤ i < min e (len text)` and `text[i] = c`, else `-1`. -/
def rfind (text : List Char) (c : Char) (s e : Nat) : Int :=
  (List.range text.length).foldl
    (fun acc i => if s ≤ i ∧ i < e ∧ text.getD i ' ' = c then (i : Int) else acc)
    (-1)

/-- Python slice `l[s:e]` for `0 ≤ s, e` (both clamp to the length). -/
def pySlice (l : List Char) (s e : Nat) : List Char :=
  (l.take e).drop s

/-- One chunk dictionary as built by `DocumentProcessor.create_chunks`
(metadata defaulted to `None`, so no source-metadata keys are merged). -/
structure Chunk where
  text : List Char
  chunk_id : Nat
  char_start : Nat
  char_end : Nat
  chunk_size : Nat
  deriving Repr, DecidableEq

/-- The `chunk_size` / `chunk_overlap` configuration of a
`DocumentProcessor` instance. -/
structure ChunkCfg where
  chunk_size : Nat
  chunk_overlap : Nat
  deriving Repr, DecidableEq

/-- The `end` position computed by one iteration of the `create_chunks` loop
(document_processor.py lines 242-257): propose `start + chunk_size`; if that
lands strictly before the text's end, look back for the last sentence
terminator in `[start, end)` and snap to just after it, provided it lies
strictly beyond `start + chunk_size // 2`. -/
def chunkEnd (cfg : ChunkCfg) (text : List Char) (start : Nat) : Nat :=
  let e := start + cfg.chunk_size
  if e < text.length then
    let bp := max (rfind text '.' start e)
      (max (rfind text '!' start e) (rfind text '?' start e))
    if bp > (start : Int) + (cfg.chunk_size / 2 : Nat) then bp.toNat + 1 else e
  else e

/-- The `while start < text_length` loop of `create_chunks`
(document_processor.py lines 241-289), fuel-indexed because the source loop
does not terminate on all inputs: `none` means the loop was still running
after `fuel` iterations.  `start` stays non-negative in the source (the loop
breaks as soon as `start <= 0` after advancing), so it is a `Nat` here and
the advance `end - chunk_overlap` is truncated subtraction; the break test
`start <= 0` becomes `start' = 0`. -/
def chunkLoop (cfg : ChunkCfg) (text : List Char) :
    Nat → Nat → Nat → List Chunk → Option (List Chunk)
  | 0, _, _, _ => none
  | fuel + 1, start, cid, acc =>
    if start < text.length then
      let e := chunkEnd cfg text start
      let ctext := stripChars (pySlice text start e)
      let acc' := if ctext = [] then acc
        else acc ++ [⟨ctext, cid, start, e, ctext.length⟩]
      let cid' := if ctext = [] then cid else cid + 1
      let start' := e - cfg.chunk_overlap
      if start' = 0 ∨ text.length ≤ e then some acc'
      else chunkLoop cfg text fuel start' cid' acc'
    else some acc

/-- `DocumentProcessor.create_chunks(text)` with `metadata=None`
(document_processor.py lines 222-291): clean the text, then run the
chunking loop from `start = 0`. -/
def create_chunks (cfg : ChunkCfg) (fuel : Nat) (raw : List Char) :
    Option (List Chunk) :=
  chunkLoop cfg (clean_text raw) fuel 0 0 []

/-! ## RAG system (`src/utils/rag_system.py`)

Embedding vectors carry exact integer coordinates (`List Int`), an exact
stand-in for the float vectors that keeps every comparison and distance
computation faithful to ordering; the Azure embedding
backend is a parameter `embBatch : List String → List (List Int)` (one
application = one API call), the chat backend a parameter
`gen : List (String × String) → String` (role/content messages in, content
out).  Chunk metadata dictionaries are modelled as association lists
`List (String × Int)`. -/

/-- A chunk-metadata dictionary (`Dict[str, int]`-shaped entries such as
the default `{"index": i}`). -/
def Meta := List (String × Int)
  deriving Repr, DecidableEq

/-- Python errors surfaced by the embedded code, plus the error classes the
spec names (which never occur in the code) so that claims about them can be
stated. -/
inductive PyErr where
  | indexError
  | valueError
  | fileNotFoundError
  | emptyDocumentError
  | corruptIndexError
  | malformedGenerationOutputError
  deriving Repr, DecidableEq

/-- `faiss.IndexFlatL2` state: the dimension passed to the constructor and
the vectors added, in insertion order. -/
structure FaissIndex where
  dim : Nat
  vectors : List (List Int)
  deriving Repr, DecidableEq

/-- Squared Euclidean distance, faiss's `METRIC_L2`. -/
def l2sq (a b : List Int) : Int :=
  ((List.zipWith (fun x y => (x - y) * (x - y)) a b).foldl (· + ·) 0)

/-- `FLT_MAX`, the distance faiss reports for padding slots when fewer than
`k` results exist. -/
def fltMax : Int := 340282346638528859811704183484516925440

/-- Insert into a list sorted by ascending (distance, id). -/
def insertPair (p : Int × Int) : List (Int × Int) → List (Int × Int)
  | [] => [p]
  | q :: qs =>
    if p.2 < q.2 ∨ (p.2 = q.2 ∧ p.1 < q.1) then p :: q :: qs
    else q :: insertPair p qs

/-- Sort (id, distance) pairs by ascending distance, ties by ascending id. -/
def sortPairs (l : List (Int × Int)) : List (Int × Int) :=
  l.foldr insertPair []

/-- Models `faiss.IndexFlatL2.search` for a single query vector: exact
nearest-neighbour search returning exactly `k` (label, distance) pairs
ordered by ascending distance (ties by insertion order); when `k` exceeds
the number of stored vectors, the remaining slots are padded with label
`-1` and distance `FLT_MAX`, faiss's behaviour for missing results. -/
def faissSearch (idx : FaissIndex) (q : List Int) (k : Nat) : List (Int × Int) :=
  let pairs := idx.vectors.enum.map (fun p => ((p.1 : Int), l2sq q p.2))
  let top := (sortPairs pairs).take k
  top ++ List.replicate (k - top.length) ((-1 : Int), fltMax)

/-- Python list indexing `l[i]` with an `int` index: negative indices wrap
once from the end; out-of-range access is an `IndexError` (`none`). -/
def pyIndex {α : Type} (l : List α) (i : Int) : Option α :=
  if i < 0 then
    if 0 ≤ i + l.length then l.get? (i + l.length).toNat else none
  else l.get? i.toNat

/-- The mutable state of a `RAGSystem` instance: `self.index`,
`self.chunks`, `self.metadata` (rag_system.py lines 32-34). -/
structure RAGState where
  index : Option FaissIndex
  chunks : List String
  metadata : List Meta
  deriving Repr, DecidableEq

/-- Helper for `batchList`: `cur` is the current batch being filled (in
reverse), `room` how many elements it still accepts. -/
def batchAux : List String → List String → Nat → List (List String)
  | [], cur, _ => [cur.reverse]
  | x :: xs, cur, 0 => cur.reverse :: batchAux xs [x] 99
  | x :: xs, cur, room + 1 => batchAux xs (x :: cur) room

/-- Split a list into consecutive batches of 100, as the loop
`for i in range(0, len(texts), batch_size)` with `batch_size = 100` does
(rag_system.py lines 49-51); an empty input yields no batches. -/
def batchList : List String → List (List String)
  | [] => []
  | x :: xs => batchAux xs [x] 99

/-- `RAGSystem.create_embeddings` (rag_system.py lines 36-61): embed the
texts in batches of 100.  Returns the number of backend API calls made
(one per batch - zero when `texts` is empty) together with the collected
embeddings. -/
def create_embeddings (embBatch : List String → List (List Int))
    (texts : List String) : Nat × List (List Int) :=
  let bs := batchList texts
  (bs.length, (bs.map embBatch).flatten)

/-- `RAGSystem.create_index` (rag_system.py lines 63-85).  Assigns
`self.chunks` and `self.metadata` first, then embeds; reading
`embeddings.shape[1]` of an empty numpy array raises `IndexError`, in which
case `self.index` is left unchanged.  Returns the state after the call, the
number of embedding-backend calls made, and the result. -/
def create_index (embBatch : List String → List (List Int)) (st : RAGState)
    (chunks : List String) (metadata : Option (List Meta)) :
    RAGState × Nat × Except PyErr FaissIndex :=
  let md := match metadata with
    | some m => if m = [] then (List.range chunks.length).map (fun i => [("index", (i : Int))])
                else m
    | none => (List.range chunks.length).map (fun i => [("index", (i : Int))])
  let st1 : RAGState := { st with chunks := chunks, metadata := md }
  let r := create_embeddings embBatch chunks
  match r.2 with
  | [] => (st1, r.1, .error .indexError)
  | v :: vs =>
    let idx : FaissIndex := ⟨v.length, v :: vs⟩
    ({ st1 with index := some idx }, r.1, .ok idx)

/-- The two persisted artifacts at one base path: `{path}.faiss` (the faiss
index) and `{path}.pkl` (the pickled `{'chunks':…, 'metadata':…}` dict);
`none` = file missing. -/
structure Store where
  faissFile : Option FaissIndex
  pklFile : Option (List String × List Meta)
  deriving Repr, DecidableEq

/-- `RAGSystem.load_index` (rag_system.py lines 110-124): read the faiss
file, then the pickle file, and overwrite `self.index`, `self.chunks`,
`self.metadata` with their contents.  A missing file propagates the
underlying read error; no other check is performed. -/
def load_index (_st : RAGState) (store : Store) : Except PyErr RAGState :=
  match store.faissFile with
  | none => .error .fileNotFoundError
  | some idx =>
    match store.pklFile with
    | none => .error .fileNotFoundError
    | some pkl => .ok ⟨some idx, pkl.1, pkl.2⟩

/-- `RAGSystem.search` (rag_system.py lines 126-156): raise `ValueError` if
no index is loaded; embed the query (one single-item batch call); run the
faiss search; keep each `(idx, distance)` whose label satisfies
`idx < len(self.chunks)` — Python's signed comparison, so the `-1` padding
labels pass — and resolve `self.chunks[idx]` / `self.metadata[idx]` with
Python (negative-wrapping) indexing. -/
def search (embBatch : List String → List (List Int)) (st : RAGState)
    (query : String) (k : Nat) :
    Except PyErr (List (String × Meta × Int)) :=
  match st.index with
  | none => .error .valueError
  | some idx =>
    let qv := (create_embeddings embBatch [query]).2.getD 0 []
    let rs := faissSearch idx qv k
    rs.foldlM (fun acc p =>
      if p.1 < (st.chunks.length : Int) then
        match pyIndex st.chunks p.1, pyIndex st.metadata p.1 with
        | some c, some m => Except.ok (acc ++ [(c, m, p.2)])
        | _, _ => Except.error PyErr.indexError
      else Except.ok acc) []

/-- Models legacy `np.random.choice(n, k, replace=False)`: `ValueError`
when the population is empty yet samples are requested ("a must be greater
than 0 unless no samples are taken"); an empty array when `k = 0`; otherwise
`k` indices drawn from the ambient randomness source `rand`. -/
def npChoice (rand : Nat → Nat → List Nat) (n k : Nat) :
    Except PyErr (List Nat) :=
  if n = 0 ∧ k ≠ 0 then .error .valueError
  else .ok (if k = 0 then [] else rand n k)

/-- `f" focusing on {topic}" if topic else ""` (rag_system.py lines 275,
322); Python's truthiness makes both `None` and `""` give `""`. -/
def topicText (topic : Option String) : String :=
  match topic with
  | some t => if t = "" then "" else " focusing on " ++ t
  | none => ""

/-- The quiz system message (rag_system.py line 293). -/
def quizSystemMsg : String :=
  "You are an educational quiz generator. Create clear, accurate questions."

/-- The quiz prompt f-string (rag_system.py lines 277-288). -/
def quizPrompt (num_questions : Nat) (difficulty : String)
    (topic_text : String) (context : String) : String :=
  "Based on the following content, generate " ++ toString num_questions
    ++ " multiple-choice questions at a " ++ difficulty
    ++ " difficulty level" ++ topic_text ++ ".\n\nContent:\n" ++ context
    ++ "\n\nFor each question, provide:\n1. The question text\n"
    ++ "2. Four answer options (A, B, C, D)\n3. The correct answer (letter)\n"
    ++ "4. A brief explanation of why it's correct\n\n"
    ++ "Format your response as a JSON array of objects with keys: "
    ++ "question, option_a, option_b, option_c, option_d, correct_answer, explanation"

/-- The flashcard system message (rag_system.py line 338). -/
def flashcardSystemMsg : String :=
  "You are an educational flashcard generator. Create clear, concise cards."

/-- The flashcard prompt f-string (rag_system.py lines 324-333). -/
def flashcardPrompt (num_cards : Nat) (topic_text : String)
    (context : String) : String :=
  "Based on the following content, generate " ++ toString num_cards
    ++ " flashcards" ++ topic_text ++ ".\n\nContent:\n" ++ context
    ++ "\n\nFor each flashcard, provide:\n"
    ++ "- Front: A question, term, or concept\n"
    ++ "- Back: The answer, definition, or explanation\n\n"
    ++ "Format your response as a JSON array of objects with keys: front, back"

/-- `RAGSystem.generate_quiz_questions` (rag_system.py lines 254-301):
sample `min(10, len(chunks))` chunks without replacement, build the prompt,
call the chat backend, and return `response.choices[0].message.content`
verbatim — the function performs no readiness check and no parsing of the
backend's text (the `# Parse response ()` stub). -/
def generate_quiz_questions (gen : List (String × String) → String)
    (rand : Nat → Nat → List Nat) (st : RAGState)
    (num_questions : Nat) (difficulty : String) (topic : Option String) :
    Except PyErr String :=
  let num_chunks := min 10 st.chunks.length
  match npChoice rand st.chunks.length num_chunks with
  | .error e => .error e
  | .ok idxs =>
    match idxs.mapM (fun i => st.chunks.get? i) with
    | none => .error .indexError
    | some sample =>
      let context := String.intercalate "\n\n" sample
      let prompt := quizPrompt num_questions difficulty (topicText topic) context
      .ok (gen [("system", quizSystemMsg), ("user", prompt)])

/-- `RAGSystem.generate_flashcards` (rag_system.py lines 303-345): same
shape as quiz generation; returns the backend content verbatim, unparsed. -/
def generate_flashcards (gen : List (String × String) → String)
    (rand : Nat → Nat → List Nat) (st : RAGState)
    (num_cards : Nat) (topic : Option String) :
    Except PyErr String :=
  let num_chunks := min 10 st.chunks.length
  match npChoice rand st.chunks.length num_chunks with
  | .error e => .error e
  | .ok idxs =>
    match idxs.mapM (fun i => st.chunks.get? i) with
    | none => .error .indexError
    | some sample =>
      let context := String.intercalate "\n\n" sample
      let prompt := flashcardPrompt num_cards (topicText topic) context
      .ok (gen [("system", flashcardSystemMsg), ("user", prompt)])

/-! ## Fixtures and predicates used by the theorems -/

/-- A 30-character text whose only sentence terminator sits at index 11:
with `chunk_size = 10`, `chunk_overlap = 9` the chunking loop revisits
`start = 3` forever. -/
def loopText : List Char := "aaaaaaaaaaa.aaaaaaaaaaaaaaaaaa".data

/-- The chunks emitted by the first three iterations (starts 0, 1, 2) of
the loop on `loopText` with `chunk_size = 10`, `chunk_overlap = 9`. -/
def loopAcc : List Chunk :=
  [⟨"aaaaaaaaaa".data, 0, 0, 10, 10⟩,
   ⟨"aaaaaaaaaa".data, 1, 1, 11, 10⟩,
   ⟨"aaaaaaaaa.".data, 2, 2, 12, 10⟩]

/-- The chunk emitted by every visit of the cycling state `start = 3` on
`loopText` with `chunk_size = 10`, `chunk_overlap = 9`. -/
def loopChunk (cid : Nat) : Chunk := ⟨"aaaaaaaa.".data, cid, 3, 12, 9⟩

/-- Every position of `[0, n)` lies in some emitted chunk's
`[char_start, char_end)` range. -/
def covers (chunks : List Chunk) (n : Nat) : Prop :=
  ∀ p, p < n → ∃ c ∈ chunks, c.char_start ≤ p ∧ p < c.char_end

instance (chunks : List Chunk) (n : Nat) : Decidable (covers chunks n) := by
  unfold covers; infer_instance

/-- No two adjacent characters are both whitespace. -/
def noAdjWs (l : List Char) : Prop :=
  List.Chain' (fun a b => ¬(isPyWs a = true ∧ isPyWs b = true)) l

/-! ## Normalizer lemmas -/

theorem collapseWs_cons_of_neg {c : Char} (h : isPyWs c = false)
    (cs : List Char) : collapseWs (c :: cs) = c :: collapseWs cs := by
  cases cs <;> simp [collapseWs, h]

theorem collapseWs_mem (l : List Char) :
    ∀ x ∈ collapseWs l, x = ' ' ∨ (isPyWs x = false ∧ x ∈ l) := by
  induction l with
  | nil => intro x hx; exact absurd hx (by simp [collapseWs])
  | cons c cs ih =>
    cases cs with
    | nil =>
      intro x hx
      by_cases h : isPyWs c = true
      · simp [collapseWs, h] at hx
        exact Or.inl hx
      · simp only [Bool.not_eq_true] at h
        simp [collapseWs, h] at hx
        subst hx
        exact Or.inr ⟨h, by simp⟩
    | cons c2 cs' =>
      intro x hx
      by_cases h : isPyWs c = true
      · by_cases h2 : isPyWs c2 = true
        · simp only [collapseWs, h, h2, if_true] at hx
          rcases ih x hx with h' | ⟨ha, hb⟩
          · exact Or.inl h'
          · exact Or.inr ⟨ha, List.mem_cons_of_mem _ hb⟩
        · simp only [Bool.not_eq_true] at h2
          simp only [collapseWs, h, h2, if_true, Bool.false_eq_true, if_false,
            List.mem_cons] at hx
          rcases hx with rfl | hx
          · exact Or.inl rfl
          · rcases ih x hx with h' | ⟨ha, hb⟩
            · exact Or.inl h'
            · exact Or.inr ⟨ha, List.mem_cons_of_mem _ hb⟩
      · simp only [Bool.not_eq_true] at h
        simp only [collapseWs, h, Bool.false_eq_true, if_false,
          List.mem_cons] at hx
        rcases hx with rfl | hx
        · exact Or.inr ⟨h, by simp⟩
        · rcases ih x hx with h' | ⟨ha, hb⟩
          · exact Or.inl h'
          · exact Or.inr ⟨ha, List.mem_cons_of_mem _ hb⟩

theorem collapseWs_noAdj (l : List Char) : noAdjWs (collapseWs l) := by
  induction l with
  | nil => exact List.chain'_nil
  | cons c cs ih =>
    cases cs with
    | nil =>
      by_cases h : isPyWs c = true <;>
        simp [collapseWs, h, noAdjWs]
    | cons c2 cs' =>
      by_cases h : isPyWs c = true
      · by_cases h2 : isPyWs c2 = true
        · simpa only [collapseWs, h, h2, if_true] using ih
        · simp only [Bool.not_eq_true] at h2
          simp only [collapseWs, h, h2, if_true, Bool.false_eq_true, if_false]
          rw [noAdjWs, List.chain'_cons']
          refine ⟨?_, ih⟩
          intro y hy
          rw [collapseWs_cons_of_neg h2] at hy
          simp at hy
          subst hy
          simp [h2]
      · simp only [Bool.not_eq_true] at h
        simp only [collapseWs, h, Bool.false_eq_true, if_false]
        rw [noAdjWs, List.chain'_cons']
        refine ⟨?_, ih⟩
        intro y _
        simp [h]

theorem removeNull_eq_self {l : List Char} (h : '\x00' ∉ l) :
    removeNull l = l := by
  rw [removeNull, List.filter_eq_self]
  intro a ha
  rw [bne_iff_ne]
  intro hh
  exact h (hh ▸ ha)

theorem collapseNlAux_zero_of_not_mem {l : List Char} (h : '\n' ∉ l) :
    collapseNlAux 0 l = l := by
  induction l with
  | nil => rfl
  | cons c cs ih =>
    have hc : ¬(c = '\n') := fun hh => h (hh ▸ List.mem_cons_self c cs)
    have hcs : '\n' ∉ cs := fun hh => h (List.mem_cons_of_mem _ hh)
    simp only [collapseNlAux, hc, if_false, emitNlRun]
    simp [ih hcs]

theorem collapseNewlines_eq_self {l : List Char} (h : '\n' ∉ l) :
    collapseNewlines l = l :=
  collapseNlAux_zero_of_not_mem h

theorem head?_dropWhile_neg (p : Char → Bool) (l : List Char) :
    ∀ y ∈ (l.dropWhile p).head?, p y = false := by
  induction l with
  | nil => intro y hy; exact absurd hy (by simp)
  | cons c cs ih =>
    intro y hy
    by_cases h : p c = true
    · rw [List.dropWhile_cons, if_pos h] at hy
      exact ih y hy
    · simp only [Bool.not_eq_true] at h
      rw [List.dropWhile_cons, if_neg (by simp [h])] at hy
      simp at hy
      subst hy
      exact h

theorem mem_of_mem_dropWhile {p : Char → Bool} {l : List Char} {x : Char}
    (h : x ∈ l.dropWhile p) : x ∈ l := by
  rw [← List.takeWhile_append_dropWhile p l]
  exact List.mem_append_right _ h

theorem stripChars_sub {l : List Char} {x : Char}
    (h : x ∈ stripChars l) : x ∈ l := by
  rw [stripChars, List.mem_reverse] at h
  have h2 := mem_of_mem_dropWhile h
  rw [List.mem_reverse] at h2
  exact mem_of_mem_dropWhile h2

theorem stripChars_last (l : List Char) :
    ∀ y ∈ (stripChars l).getLast?, isPyWs y = false := by
  intro y hy
  rw [stripChars, List.getLast?_reverse] at hy
  exact head?_dropWhile_neg isPyWs _ y hy

theorem stripChars_head (l : List Char) :
    ∀ y ∈ (stripChars l).head?, isPyWs y = false := by
  intro y hy
  have hsplit := List.takeWhile_append_dropWhile isPyWs (l.dropWhile isPyWs).reverse
  cases hsr : ((l.dropWhile isPyWs).reverse.dropWhile isPyWs).reverse with
  | nil =>
    rw [stripChars, hsr] at hy
    exact absurd hy (by simp)
  | cons a as =>
    rw [stripChars, hsr] at hy
    simp only [List.head?_cons, Option.mem_def, Option.some.injEq] at hy
    subst hy
    have hr : (l.dropWhile isPyWs).head? = some a := by
      conv_lhs => rw [← List.reverse_reverse (l.dropWhile isPyWs), ← hsplit]
      rw [List.reverse_append, hsr]
      simp
    exact head?_dropWhile_neg isPyWs l a (by rw [hr]; rfl)

theorem dropWhile_eq_self_of_head {p : Char → Bool} {l : List Char}
    (h : ∀ y ∈ l.head?, p y = false) : l.dropWhile p = l := by
  cases l with
  | nil => rfl
  | cons c cs =>
    have hc : p c = false := h c rfl
    rw [List.dropWhile_cons, if_neg (by simp [hc])]

theorem stripChars_eq_self {l : List Char}
    (h1 : ∀ y ∈ l.head?, isPyWs y = false)
    (h2 : ∀ y ∈ l.getLast?, isPyWs y = false) : stripChars l = l := by
  rw [stripChars, dropWhile_eq_self_of_head h1,
    dropWhile_eq_self_of_head (by rw [List.head?_reverse]; exact h2),
    List.reverse_reverse]

theorem stripChars_stripChars (l : List Char) :
    stripChars (stripChars l) = stripChars l :=
  stripChars_eq_self (stripChars_head l) (stripChars_last l)

theorem noAdj_dropWhile {p : Char → Bool} {l : List Char}
    (h : noAdjWs l) : noAdjWs (l.dropWhile p) := by
  rw [noAdjWs] at h ⊢
  rw [← List.takeWhile_append_dropWhile p l] at h
  exact (List.chain'_append.mp h).2.1

theorem noAdj_reverse {l : List Char} (h : noAdjWs l) :
    noAdjWs l.reverse := by
  rw [noAdjWs] at h ⊢
  rw [List.chain'_reverse]
  exact List.Chain'.imp (fun a b hab hc => hab ⟨hc.2, hc.1⟩) h

theorem noAdj_stripChars {l : List Char} (h : noAdjWs l) :
    noAdjWs (stripChars l) := by
  rw [stripChars]
  exact noAdj_reverse (noAdj_dropWhile (noAdj_reverse (noAdj_dropWhile h)))

theorem noAdj_get {l : List Char} (h : noAdjWs l) (i : Nat)
    (hi : i + 1 < l.length) :
    ¬(isPyWs (l.get ⟨i, by omega⟩) = true ∧
      isPyWs (l.get ⟨i + 1, hi⟩) = true) := by
  rw [noAdjWs, List.chain'_iff_get] at h
  have := h i (by omega)
  convert this using 3

theorem collapseWs_eq_self {l : List Char} (hchain : noAdjWs l)
    (hsp : ∀ x ∈ l, isPyWs x = true → x = ' ') : collapseWs l = l := by
  induction l with
  | nil => rfl
  | cons c cs ih =>
    cases cs with
    | nil =>
      by_cases h : isPyWs c = true
      · have := hsp c (by simp) h
        simp [collapseWs, h, this]
      · simp only [Bool.not_eq_true] at h
        simp [collapseWs, h]
    | cons c2 cs' =>
      have htail : noAdjWs (c2 :: cs') := (List.chain'_cons.mp hchain).2
      have hsp' : ∀ x ∈ c2 :: cs', isPyWs x = true → x = ' ' :=
        fun x hx => hsp x (List.mem_cons_of_mem _ hx)
      by_cases h : isPyWs c = true
      · have h2 : isPyWs c2 = false := by
          have := (List.chain'_cons.mp hchain).1
          by_contra hcon
          simp only [Bool.not_eq_false] at hcon
          exact this ⟨h, hcon⟩
        have hc : c = ' ' := hsp c (by simp) h
        simp only [collapseWs, h, h2, if_true, Bool.false_eq_true, if_false]
        rw [ih htail hsp', hc]
      · simp only [Bool.not_eq_true] at h
        simp only [collapseWs, h, Bool.false_eq_true, if_false]
        rw [ih htail hsp']

theorem clean_text_eq_strip_collapse {t : List Char} (h : '\x00' ∉ t) :
    clean_text t = stripChars (collapseWs t) := by
  have hnl : '\n' ∉ collapseWs t := by
    intro hmem
    rcases collapseWs_mem t '\n' hmem with h' | ⟨h', _⟩
    · exact absurd h' (by decide)
    · exact absurd h' (by decide)
  have hnull : '\x00' ∉ collapseWs t := by
    intro hmem
    rcases collapseWs_mem t '\x00' hmem with h' | ⟨_, h'⟩
    · exact absurd h' (by decide)
    · exact h h'
  rw [clean_text, collapseNewlines_eq_self hnl, removeNull_eq_self hnull]

theorem clean_text_noAdj {t : List Char} (h : '\x00' ∉ t) :
    noAdjWs (clean_text t) := by
  rw [clean_text_eq_strip_collapse h]
  exact noAdj_stripChars (collapseWs_noAdj t)

theorem clean_text_ws_space {t : List Char} (h : '\x00' ∉ t) :
    ∀ x ∈ clean_text t, isPyWs x = true → x = ' ' := by
  intro x hx hws
  rw [clean_text_eq_strip_collapse h] at hx
  rcases collapseWs_mem t x (stripChars_sub hx) with h' | ⟨h', _⟩
  · exact h'
  · rw [hws] at h'; exact absurd h' (by decide)

theorem clean_text_head (t : List Char) :
    ∀ y ∈ (clean_text t).head?, isPyWs y = false :=
  stripChars_head _

theorem clean_text_last (t : List Char) :
    ∀ y ∈ (clean_text t).getLast?, isPyWs y = false :=
  stripChars_last _

theorem stripChars_clean_text (t : List Char) :
    stripChars (clean_text t) = clean_text t :=
  stripChars_eq_self (clean_text_head t) (clean_text_last t)

/-! ## Chunker lemmas -/

theorem rfind_spec (text : List Char) (c : Char) (s e : Nat) :
    rfind text c s e = -1 ∨
    (∃ r : Nat, rfind text c s e = r ∧ s ≤ r ∧ r < e ∧ r < text.length) := by
  rw [rfind]
  refine List.foldlRecOn
    (motive := fun x : Int =>
      x = -1 ∨ ∃ r : Nat, x = (r : Int) ∧ s ≤ r ∧ r < e ∧ r < text.length)
    (List.range text.length) _ (-1) (Or.inl rfl) ?_
  intro b hb i hi
  by_cases hcond : s ≤ i ∧ i < e ∧ text.getD i ' ' = c
  · rw [if_pos hcond]
    exact Or.inr ⟨i, rfl, hcond.1, hcond.2.1, List.mem_range.mp hi⟩
  · rw [if_neg hcond]
    exact hb

theorem chunkEnd_spec (cfg : ChunkCfg) (T : List Char) (start : Nat) :
    chunkEnd cfg T start = start + cfg.chunk_size ∨
    (start + cfg.chunk_size / 2 + 2 ≤ chunkEnd cfg T start ∧
     chunkEnd cfg T start ≤ T.length ∧
     chunkEnd cfg T start ≤ start + cfg.chunk_size) := by
  rw [chunkEnd]
  by_cases h1 : start + cfg.chunk_size < T.length
  · simp only [if_pos h1]
    set bp := max (rfind T '.' start (start + cfg.chunk_size))
      (max (rfind T '!' start (start + cfg.chunk_size))
        (rfind T '?' start (start + cfg.chunk_size))) with hbp
    by_cases h2 : bp > (start : Int) + (cfg.chunk_size / 2 : Nat)
    · rw [if_pos h2]
      right
      have hone : bp = rfind T '.' start (start + cfg.chunk_size) ∨
          bp = rfind T '!' start (start + cfg.chunk_size) ∨
          bp = rfind T '?' start (start + cfg.chunk_size) := by
        rcases max_choice (rfind T '.' start (start + cfg.chunk_size))
          (max (rfind T '!' start (start + cfg.chunk_size))
            (rfind T '?' start (start + cfg.chunk_size))) with h | h
        · exact Or.inl (hbp.trans h)
        · rcases max_choice (rfind T '!' start (start + cfg.chunk_size))
            (rfind T '?' start (start + cfg.chunk_size)) with h' | h'
          · exact Or.inr (Or.inl ((hbp.trans h).trans h'))
          · exact Or.inr (Or.inr ((hbp.trans h).trans h'))
      have hnonneg : 0 ≤ bp := by omega
      rcases hone with hc | hc | hc <;>
      · rcases rfind_spec T _ start (start + cfg.chunk_size) with hr | ⟨r, hr, ha, hb, hd⟩
        · rw [hc, hr] at h2; omega
        · rw [hc, hr] at h2 ⊢
          have : ((r : Int)).toNat = r := Int.toNat_natCast r
          rw [this]
          omega
    · rw [if_neg h2]
      exact Or.inl rfl
  · left
    simp only [if_neg h1]

theorem chunkLoop_mono (cfg : ChunkCfg) (T : List Char) :
    ∀ fuel start cid acc out,
      chunkLoop cfg T fuel start cid acc = some out →
      ∀ ch ∈ acc, ch ∈ out := by
  intro fuel
  induction fuel with
  | zero =>
    intro start cid acc out h
    exact absurd h (by simp [chunkLoop])
  | succ n ih =>
    intro start cid acc out h ch hch
    simp only [chunkLoop] at h
    by_cases hlt : start < T.length
    · rw [if_pos hlt] at h
      have hch' : ch ∈ (if stripChars (pySlice T start (chunkEnd cfg T start)) = []
          then acc
          else acc ++ [⟨stripChars (pySlice T start (chunkEnd cfg T start)), cid,
            start, chunkEnd cfg T start,
            (stripChars (pySlice T start (chunkEnd cfg T start))).length⟩]) := by
        split
        · exact hch
        · exact List.mem_append_left _ hch
      by_cases hbrk : chunkEnd cfg T start - cfg.chunk_overlap = 0 ∨
          T.length ≤ chunkEnd cfg T start
      · rw [if_pos hbrk] at h
        injection h with h
        exact h ▸ hch'
      · rw [if_neg hbrk] at h
        exact ih _ _ _ _ h ch hch'
    · rw [if_neg hlt] at h
      injection h with h
      exact h ▸ hch

theorem stripChars_eq_nil {l : List Char} (h : stripChars l = []) :
    ∀ x ∈ l, isPyWs x = true := by
  rw [stripChars, List.reverse_eq_nil_iff, List.dropWhile_eq_nil_iff] at h
  intro x hx
  rw [← List.takeWhile_append_dropWhile isPyWs l] at hx
  rcases List.mem_append.mp hx with h1 | h2
  · exact List.mem_takeWhile_imp h1
  · exact h x (List.mem_reverse.mpr h2)

theorem pySlice_length (l : List Char) (s e : Nat) :
    (pySlice l s e).length = min e l.length - s := by
  simp [pySlice]

theorem pySlice_get (l : List Char) (s e j : Nat)
    (hj : j < (pySlice l s e).length) (hsj : s + j < l.length) :
    (pySlice l s e).get ⟨j, hj⟩ = l.get ⟨s + j, hsj⟩ := by
  simp only [pySlice, List.get_eq_getElem, List.getElem_drop,
    List.getElem_take]

theorem slice_strip_ne_nil (size ov : Nat) (hsz : 2 ≤ size) (T : List Char)
    (hadj : noAdjWs T) (hlast : ∀ y ∈ T.getLast?, isPyWs y = false)
    {start : Nat} (hlt : start < T.length) :
    stripChars (pySlice T start (chunkEnd ⟨size, ov⟩ T start)) ≠ [] := by
  intro hnil
  have hall := stripChars_eq_nil hnil
  have hespec := chunkEnd_spec ⟨size, ov⟩ T start
  dsimp only at hespec
  set e := chunkEnd ⟨size, ov⟩ T start with he
  have h2 : start + 2 ≤ e := by
    rcases hespec with h' | ⟨h', _, _⟩ <;> omega
  by_cases hel : T.length ≤ e
  · have hT0 : 0 < T.length := by omega
    have hj : T.length - 1 - start < (pySlice T start e).length := by
      rw [pySlice_length]; omega
    have hje := pySlice_get T start e (T.length - 1 - start) hj (by omega)
    have hmem : T.get ⟨start + (T.length - 1 - start), by omega⟩
        ∈ pySlice T start e := by
      rw [← hje]; exact List.get_mem _ _ _
    have hws := hall _ hmem
    have hne : T ≠ [] := List.length_pos.mp hT0
    have hlast' := hlast (T.getLast hne)
      (by rw [List.getLast?_eq_getLast_of_ne_nil hne]; exact rfl)
    rw [List.getLast_eq_get] at hlast'
    have heq : (⟨start + (T.length - 1 - start), by omega⟩ : Fin T.length)
        = ⟨T.length - 1, by omega⟩ := by
      apply Fin.ext
      show start + (T.length - 1 - start) = T.length - 1
      omega
    rw [heq] at hws
    exact Bool.noConfusion (hlast'.symm.trans hws)
  · have hee : e ≤ T.length := by omega
    have hj0 : 0 < (pySlice T start e).length := by rw [pySlice_length]; omega
    have hj1 : 1 < (pySlice T start e).length := by rw [pySlice_length]; omega
    have hg0 := pySlice_get T start e 0 hj0 (by omega)
    have hg1 := pySlice_get T start e 1 hj1 (by omega)
    have hm0 : (pySlice T start e).get ⟨0, hj0⟩ ∈ pySlice T start e :=
      List.get_mem _ _ _
    have hm1 : (pySlice T start e).get ⟨1, hj1⟩ ∈ pySlice T start e :=
      List.get_mem _ _ _
    rw [hg0] at hm0
    rw [hg1] at hm1
    exact noAdj_get hadj start (by omega) ⟨hall _ hm0, hall _ hm1⟩

theorem chunkLoop_cover {size ov : Nat} (hsz : 2 ≤ size) (hov : ov < size)
    (hov2 : ov ≤ size / 2 + 1) (T : List Char) (hadj : noAdjWs T)
    (hlast : ∀ y ∈ T.getLast?, isPyWs y = false) :
    ∀ fuel start cid acc out,
      chunkLoop ⟨size, ov⟩ T fuel start cid acc = some out →
      ∀ p, start ≤ p → p < T.length →
        ∃ ch ∈ out, ch.char_start ≤ p ∧ p < ch.char_end := by
  intro fuel
  induction fuel with
  | zero =>
    intro start cid acc out h
    exact absurd h (by simp [chunkLoop])
  | succ n ih =>
    intro start cid acc out h p hsp hpl
    have hlt : start < T.length := lt_of_le_of_lt hsp hpl
    simp only [chunkLoop] at h
    rw [if_pos hlt] at h
    have hct := slice_strip_ne_nil size ov hsz T hadj hlast hlt
    rw [if_neg hct, if_neg hct] at h
    have hespec := chunkEnd_spec ⟨size, ov⟩ T start
    dsimp only at hespec
    have hprog : ov < chunkEnd ⟨size, ov⟩ T start := by
      rcases hespec with h' | ⟨h', _, _⟩ <;> omega
    by_cases hbrk : T.length ≤ chunkEnd ⟨size, ov⟩ T start
    · rw [if_pos (Or.inr hbrk)] at h
      injection h with h
      refine ⟨⟨stripChars (pySlice T start (chunkEnd ⟨size, ov⟩ T start)), cid,
        start, chunkEnd ⟨size, ov⟩ T start,
        (stripChars (pySlice T start (chunkEnd ⟨size, ov⟩ T start))).length⟩,
        ?_, hsp, lt_of_lt_of_le hpl hbrk⟩
      rw [← h]
      exact List.mem_append_right _ (List.mem_singleton_self _)
    · have hcond : ¬(chunkEnd ⟨size, ov⟩ T start - ov = 0 ∨
          T.length ≤ chunkEnd ⟨size, ov⟩ T start) := by
        rintro (hc | hc)
        · omega
        · exact hbrk hc
      rw [if_neg hcond] at h
      by_cases hpe : p < chunkEnd ⟨size, ov⟩ T start - ov
      · refine ⟨⟨stripChars (pySlice T start (chunkEnd ⟨size, ov⟩ T start)), cid,
          start, chunkEnd ⟨size, ov⟩ T start,
          (stripChars (pySlice T start (chunkEnd ⟨size, ov⟩ T start))).length⟩,
          chunkLoop_mono ⟨size, ov⟩ T n _ _ _ _ h _
            (List.mem_append_right _ (List.mem_singleton_self _)), hsp, ?_⟩
        show p < chunkEnd ⟨size, ov⟩ T start
        omega
      · exact ih (chunkEnd ⟨size, ov⟩ T start - ov) (cid + 1) _ out h p
          (by omega) hpl

/-! ## Theorems -/

/-- C5: the claim says an input containing a paragraph break (two or more
consecutive newlines) normalizes to output still containing the two-newline
break.  In the code, `re.sub(r'\s+', ' ', text)` runs first and destroys
every newline, so the `\n{3,}` step is dead code: `"a\n\nb"` cleans to
`"a b"` — the paragraph break becomes a single space and no newline
survives.  This contradicts the code's own comment "(keep paragraph
breaks)". -/
theorem C5_paragraph_break_lost :
    clean_text "a\n\nb".data = "a b".data ∧
    '\n' ∉ clean_text "a\n\nb".data := by
  exact ⟨rfl, by decide⟩

/-- C2, counterexample: a persisted pair whose vector count (1) differs
from the side-table length (2) is loaded silently and successfully — the
claim that `load_index` never silently loads a mismatched pair is false. -/
theorem C2_counterexample :
    load_index ⟨none, [], []⟩ ⟨some ⟨1, [[0]]⟩, some (["a", "b"], [[], []])⟩
      = .ok ⟨some ⟨1, [[0]]⟩, ["a", "b"], [[], []]⟩ ∧
    (FaissIndex.mk 1 [[0]]).vectors.length ≠ (["a", "b"] : List String).length := by
  exact ⟨rfl, by decide⟩

/-- C2, amended: `load_index` fails exactly when one of the two artifacts
is missing (the underlying read error propagates); when both are present it
overwrites the whole state with their contents unconditionally — no
vector-count/side-table-length comparison is ever made, so mismatched pairs
load silently. -/
theorem C2_load_index_behaviour (st : RAGState) (store : Store) :
    load_index st store =
      match store.faissFile, store.pklFile with
      | none, _ => .error .fileNotFoundError
      | some _, none => .error .fileNotFoundError
      | some idx, some pkl => .ok ⟨some idx, pkl.1, pkl.2⟩ := by
  rcases store with ⟨_ | idx, _ | pkl⟩ <;> rfl

/-- C3, counterexample: `create_index([])` fails with `IndexError` (reading
`shape[1]` of the empty embeddings array), not with an
`EmptyDocumentError`-class condition as the claim states. -/
theorem C3_counterexample :
    (create_index (fun ts => ts.map (fun _ => [(0 : Int)])) ⟨none, [], []⟩ [] none)
      = (⟨none, [], []⟩, 0, .error .indexError) ∧
    (Except.error PyErr.indexError : Except PyErr FaissIndex)
      ≠ .error .emptyDocumentError := by
  refine ⟨rfl, fun h => ?_⟩
  injection h with h2
  exact absurd h2 (by decide)

/-- C3, amended: `create_index` on an empty chunk list raises `IndexError`
(not `EmptyDocumentError`, which does not exist in the code): the batch
loop makes zero embedding-backend calls (middle component `0`), and
`self.index` is left unchanged, though `self.chunks`/`self.metadata` have
already been reset to empty before the failure. -/
theorem C3_create_index_empty (emb : List String → List (List Int))
    (st : RAGState) :
    create_index emb st [] none
      = ({ st with chunks := [], metadata := [] }, 0, .error .indexError) :=
  rfl

/-- C4: `generate_quiz_questions` and `generate_flashcards` return the
generation backend's `message.content` verbatim (the `# Parse response ()`
stub parses nothing), even when that content is not a parseable structured
record, and no `MalformedGenerationOutputError`-class failure exists —
contradicting the functions' own `List[Dict]` annotations and docstrings;
the JSON extraction actually lives in the caller pages. -/
theorem C4_raw_backend_text_returned :
    generate_quiz_questions (fun _ => "this is not a structured record")
      (fun _ _ => [0]) ⟨some ⟨1, [[0]]⟩, ["a"], [[("index", 0)]]⟩
      5 "medium" none = .ok "this is not a structured record" ∧
    generate_flashcards (fun _ => "this is not a structured record")
      (fun _ _ => [0]) ⟨some ⟨1, [[0]]⟩, ["a"], [[("index", 0)]]⟩
      10 none = .ok "this is not a structured record" := by
  exact ⟨rfl, rfl⟩

/-- C1: on an index holding exactly one vector, `search(q, 2)` returns two
results — the single chunk appears twice, because faiss pads the missing
slot with label `-1`/distance `FLT_MAX`, the guard `idx < len(self.chunks)`
lets `-1` through, and Python's negative indexing resolves `chunks[-1]` to
the last chunk.  The claim (exactly all indexed vectors, one per chunk, no
duplicates) is false; the `# Valid index` guard contradicts its intent. -/
theorem C1_duplicate_results :
    search (fun ts => ts.map (fun _ => [(0 : Int)]))
      ⟨some ⟨1, [[0]]⟩, ["a"], [[("index", 0)]]⟩ "q" 2
      = .ok [("a", [("index", 0)], 0), ("a", [("index", 0)], fltMax)] := by
  rfl

/-- C10: `search` fails with `ValueError` when no index is built or loaded,
but `generate_quiz_questions` and `generate_flashcards` perform no
readiness check at all: with an empty chunk list they sample zero chunks
(`np.random.choice(0, 0, replace=False)` succeeds) and still invoke the
generation backend with an empty context block. -/
theorem C10_no_readiness_check_in_generators
    (emb : List String → List (List Int))
    (gen : List (String × String) → String) (rand : Nat → Nat → List Nat)
    (st : RAGState) (q : String) (k nq nc : Nat) (d : String)
    (topic : Option String) :
    (st.index = none → search emb st q k = .error .valueError) ∧
    (st.chunks = [] →
      generate_quiz_questions gen rand st nq d topic
        = .ok (gen [("system", quizSystemMsg),
                    ("user", quizPrompt nq d (topicText topic) "")]) ∧
      generate_flashcards gen rand st nc topic
        = .ok (gen [("system", flashcardSystemMsg),
                    ("user", flashcardPrompt nc (topicText topic) "")])) := by
  obtain ⟨i, c, m⟩ := st
  refine ⟨fun hidx => ?_, fun hc => ?_⟩
  · cases i with
    | none => rfl
    | some idx => exact absurd hidx (by simp)
  · simp only at hc
    subst hc
    exact ⟨rfl, rfl⟩

/-- C10, witness: the theorem instantiated at the fresh `RAGSystem` state
(no index, no chunks) with concrete backends. -/
theorem C10_no_readiness_check_witness :
    search (fun ts => ts.map (fun _ => [(0 : Int)])) ⟨none, [], []⟩ "q" 5
      = .error .valueError ∧
    generate_quiz_questions (fun _ => "G") (fun _ _ => []) ⟨none, [], []⟩
      5 "medium" none = .ok "G" ∧
    generate_flashcards (fun _ => "G") (fun _ _ => []) ⟨none, [], []⟩
      10 none = .ok "G" := by
  have h := C10_no_readiness_check_in_generators
    (fun ts => ts.map (fun _ => [(0 : Int)])) (fun _ => "G") (fun _ _ => [])
    ⟨none, [], []⟩ "q" 5 5 10 "medium" none
  exact ⟨h.1 rfl, (h.2 rfl).1, (h.2 rfl).2⟩

/-- C6: the chunking loop does not terminate on all valid inputs.  On a
30-character text whose only sentence terminator is at index 11, with the
valid configuration `chunk_size = 10`, `chunk_overlap = 9`, the loop
reaches `start = 3`, snaps `end` to 12, advances `start = 12 - 9 = 3`, and
neither exit condition (`start <= 0`, `end >= text_length`) ever fires: the
loop revisits `start = 3` forever (the `# Prevent infinite loop` guard is
insufficient), so no amount of fuel makes it return. -/
theorem C6_loop_divergence :
    ∀ fuel, create_chunks ⟨10, 9⟩ fuel loopText = none := by
  have cycle : ∀ fuel cid acc,
      chunkLoop ⟨10, 9⟩ loopText fuel 3 cid acc = none := by
    intro fuel
    induction fuel with
    | zero => intro cid acc; rfl
    | succ n ih =>
      intro cid acc
      exact Eq.trans
        (rfl : chunkLoop ⟨10, 9⟩ loopText (n + 1) 3 cid acc
          = chunkLoop ⟨10, 9⟩ loopText n 3 (cid + 1) (acc ++ [loopChunk cid]))
        (ih (cid + 1) (acc ++ [loopChunk cid]))
  intro fuel
  rcases Nat.lt_or_ge fuel 3 with h | h
  · interval_cases fuel <;> rfl
  · obtain ⟨n, rfl⟩ : ∃ n, fuel = n + 3 := ⟨fuel - 3, by omega⟩
    exact Eq.trans
      (rfl : create_chunks ⟨10, 9⟩ (n + 3) loopText
        = chunkLoop ⟨10, 9⟩ loopText n 3 3 loopAcc)
      (cycle n 3 loopAcc)

/-- C9, counterexample: the already-normalized two-character text `"ab"`
with `chunk_size = 5` yields one chunk whose text is the whole text, but
its recorded range is `[0, 5)` — `char_end` is the unclamped
`start + chunk_size`, not the text length `2`, so the range is not
`[0, len(text))` as claimed. -/
theorem C9_counterexample :
    create_chunks ⟨5, 0⟩ 1 "ab".data = some [⟨"ab".data, 0, 0, 5, 2⟩] ∧
    (Chunk.mk "ab".data 0 0 5 2).char_end ≠ ("ab".data).length := by
  exact ⟨rfl, by decide⟩

/-- C7, counterexample: three concrete runs where the union of emitted
chunk ranges does not cover `[0, len)` of the normalized text.
(1) `chunk_size = 5, chunk_overlap = 4` on `"abc.defghijklmnopqrs"`:
sentence snapping gives `end = 4`, the advance `start = 4 - 4 = 0` trips
the `start <= 0` infinite-loop guard, and the loop exits leaving `[4, 20)`
uncovered.  (2) `chunk_size = 1` on `"a b"`: the middle slice is the single
space, strips to empty and is skipped, leaving a gap at `[1, 2)`.
(3) null bytes: `"abc \x00 \x00 def"` normalizes to `"abc   def"` (null
removal merges whitespace runs), and with `chunk_size = 3` the all-space
middle slice is skipped, leaving `[3, 6)` uncovered. -/
theorem C7_counterexample :
    (create_chunks ⟨5, 4⟩ 10 "abc.defghijklmnopqrs".data
        = some [⟨"abc.".data, 0, 0, 4, 4⟩] ∧
      ¬ covers [⟨"abc.".data, 0, 0, 4, 4⟩]
          (clean_text "abc.defghijklmnopqrs".data).length) ∧
    (create_chunks ⟨1, 0⟩ 10 "a b".data
        = some [⟨"a".data, 0, 0, 1, 1⟩, ⟨"b".data, 1, 2, 3, 1⟩] ∧
      ¬ covers [⟨"a".data, 0, 0, 1, 1⟩, ⟨"b".data, 1, 2, 3, 1⟩]
          (clean_text "a b".data).length) ∧
    (create_chunks ⟨3, 0⟩ 10 "abc \x00 \x00 def".data
        = some [⟨"abc".data, 0, 0, 3, 3⟩, ⟨"def".data, 1, 6, 9, 3⟩] ∧
      ¬ covers [⟨"abc".data, 0, 0, 3, 3⟩, ⟨"def".data, 1, 6, 9, 3⟩]
          (clean_text "abc \x00 \x00 def".data).length) := by
  exact ⟨⟨rfl, by decide⟩, ⟨rfl, by decide⟩, ⟨rfl, by decide⟩⟩

/-- C8, counterexample: normalization is not idempotent on inputs with null
bytes.  `"a \x00 b"` cleans to `"a  b"` — removing the null byte merges two
single-space runs into a double space — and a second pass collapses that to
`"a b"`. -/
theorem C8_counterexample :
    clean_text (clean_text "a \x00 b".data) ≠ clean_text "a \x00 b".data := by
  decide

/-- C8, amended: normalization is idempotent on every input that contains
no null byte.  (The general claim fails only because `replace('\x00', '')`
runs after whitespace collapsing and can merge two whitespace runs.) -/
theorem C8_idempotent_without_null {t : List Char} (h : '\x00' ∉ t) :
    clean_text (clean_text t) = clean_text t := by
  have hnull : '\x00' ∉ clean_text t := by
    intro hmem
    rw [clean_text_eq_strip_collapse h] at hmem
    rcases collapseWs_mem t '\x00' (stripChars_sub hmem) with h' | ⟨_, h'⟩
    · exact absurd h' (by decide)
    · exact h h'
  have hnl : '\n' ∉ clean_text t := by
    intro hmem
    have := clean_text_ws_space h '\n' hmem (by decide)
    exact absurd this (by decide)
  have hcoll : collapseWs (clean_text t) = clean_text t :=
    collapseWs_eq_self (clean_text_noAdj h) (clean_text_ws_space h)
  rw [clean_text, hcoll, collapseNewlines_eq_self hnl,
    removeNull_eq_self hnull, stripChars_clean_text]

/-- C8, witness: the amended idempotence at the null-free input
`"  a  b\n\nc "`. -/
theorem C8_idempotent_witness :
    '\x00' ∉ "  a  b\n\nc ".data ∧
    clean_text (clean_text "  a  b\n\nc ".data)
      = clean_text "  a  b\n\nc ".data :=
  ⟨by decide, C8_idempotent_without_null (by decide)⟩

/-- C9, amended: on a non-empty normalized text strictly shorter than
`chunk_size`, chunking emits exactly one chunk whose text is the whole text
and whose recorded range is `[0, chunk_size)` — `char_start = 0` but
`char_end` is the unclamped `start + chunk_size`, not the text length. -/
theorem C9_single_chunk (cfg : ChunkCfg) (t : List Char) (fuel : Nat)
    (hnorm : clean_text t = t) (hne : t ≠ [])
    (hlt : t.length < cfg.chunk_size) (hf : 1 ≤ fuel) :
    create_chunks cfg fuel t = some [⟨t, 0, 0, cfg.chunk_size, t.length⟩] := by
  obtain ⟨n, rfl⟩ : ∃ n, fuel = n + 1 := ⟨fuel - 1, by omega⟩
  rw [create_chunks, hnorm]
  have hpos : 0 < t.length := List.length_pos.mpr hne
  have he : chunkEnd cfg t 0 = cfg.chunk_size := by
    rw [chunkEnd]
    simp only [Nat.zero_add]
    rw [if_neg (by omega)]
  have hslice : pySlice t 0 cfg.chunk_size = t := by
    rw [pySlice, List.drop_zero, List.take_of_length_le (le_of_lt hlt)]
  have hstrip : stripChars t = t := by
    conv_lhs => rw [← hnorm]
    rw [stripChars_clean_text, hnorm]
  simp only [chunkLoop, if_pos hpos, he, hslice, hstrip, if_neg hne,
    Nat.zero_add]
  rw [if_pos (Or.inr (le_of_lt hlt))]
  simp

/-- C9, witness: the amended statement at the normalized text `"ab"` with
`chunk_size = 5`, `chunk_overlap = 0`, one unit of fuel. -/
theorem C9_single_chunk_witness :
    clean_text "ab".data = "ab".data ∧ "ab".data ≠ [] ∧
    ("ab".data).length < 5 ∧ 1 ≤ 1 ∧
    create_chunks ⟨5, 0⟩ 1 "ab".data = some [⟨"ab".data, 0, 0, 5, 2⟩] :=
  ⟨by decide, by decide, by decide, by decide,
    C9_single_chunk ⟨5, 0⟩ "ab".data 1 (by decide) (by decide) (by decide)
      (by decide)⟩

/-- C7, amended: chunk coverage holds under three additional hypotheses
that the counterexamples show are necessary: the raw text contains no null
byte (otherwise null removal can merge whitespace into skippable all-space
slices), `chunk_size ≥ 2` (otherwise a single-space slice is skipped), and
`chunk_overlap ≤ chunk_size / 2 + 1` (otherwise the `start <= 0`
infinite-loop guard can exit the loop before the end of the text).  Then
whenever the loop returns, the union of the emitted `[char_start,
char_end)` ranges covers every position of `[0, len)` of the normalized
text. -/
theorem C7_chunk_coverage (raw : List Char) (size ov fuel : Nat)
    (out : List Chunk) (hnull : '\x00' ∉ raw) (hsz : 2 ≤ size)
    (hov : ov < size) (hov2 : ov ≤ size / 2 + 1)
    (hrun : create_chunks ⟨size, ov⟩ fuel raw = some out) :
    covers out (clean_text raw).length := by
  intro p hp
  exact chunkLoop_cover hsz hov hov2 (clean_text raw) (clean_text_noAdj hnull)
    (clean_text_last raw) fuel 0 0 [] out hrun p (Nat.zero_le p) hp

/-- C7, witness: the amended coverage at `"abcdefgh"` with
`chunk_size = 5`, `chunk_overlap = 2`: the two emitted chunks cover
`[0, 8)`. -/
theorem C7_chunk_coverage_witness :
    '\x00' ∉ "abcdefgh".data ∧ 2 ≤ 5 ∧ 2 < 5 ∧ 2 ≤ 5 / 2 + 1 ∧
    create_chunks ⟨5, 2⟩ 10 "abcdefgh".data
      = some [⟨"abcde".data, 0, 0, 5, 5⟩, ⟨"defgh".data, 1, 3, 8, 5⟩] ∧
    covers [⟨"abcde".data, 0, 0, 5, 5⟩, ⟨"defgh".data, 1, 3, 8, 5⟩]
      (clean_text "abcdefgh".data).length :=
  ⟨by decide, by decide, by decide, by decide, by decide,
    C7_chunk_coverage "abcdefgh".data 5 2 10 _ (by decide) (by decide)
      (by decide) (by decide) (by decide)⟩

end StudyAssistant
